import Mathlib

/-!
Verification of the bingo-card generator.

JavaScript numbers are modelled as exact rationals (`ℚ`) where the source
performs division, and as `ℕ`/`ℤ` where the source only manipulates integer
counts and indices.  On every input considered below, the double-precision
arithmetic of the source is exact (all intermediate values are integers
below 2^53), so the rational model computes the same values.
-/

namespace Bingo

/-- `Math.round` rounds to the nearest integer, half-integers toward `+∞`;
this is `floor (x + 1/2)`, written with the executable `Rat.floor`. -/
def jsRound (q : ℚ) : ℤ :=
  (q + 1 / 2).floor

/-- `Rat.floor` agrees with the mathematical floor function. -/
theorem ratFloor_eq_floor (q : ℚ) : q.floor = ⌊q⌋ := by
  rw [Rat.floor_def', Rat.floor_def]

/-- `jsRound` agrees with Mathlib's `round`. -/
theorem jsRound_eq_round (q : ℚ) : jsRound q = round q := by
  rw [jsRound, ratFloor_eq_floor, round_eq]

/-- Embedding of `getCombinations(n, r)`: binomial coefficient computed with
the symmetry trick and a multiplicative loop, rounding the final product to
the nearest integer, exactly as in the source. -/
def getCombinations (n r : ℕ) : ℤ :=
  if n < r then 0
  else if r = 0 ∨ r = n then 1
  else
    let r2 := if n < 2 * r then n - r else r
    jsRound ((List.range r2).foldl
      (fun (res : ℚ) (i : ℕ) => res * ((n : ℚ) - ((i : ℚ) + 1) + 1) / ((i : ℚ) + 1)) (1 : ℚ))

/-- Embedding of the `while (true)` search loop in the pool-size effect:
starting from `p`, stop as soon as `getCombinations p k ≥ cardCount`;
otherwise increment, and stop with the incremented value once it
exceeds 100.  The loop visits at most the values `p, p+1, …, 101`, so a
structural counter of `101 - p` steps reproduces it exactly: once the
counter is exhausted `p ≥ 101 > 100` holds, and the loop body then always
stops at `p` or `p + 1`, which is what the base case computes. -/
def minPoolAux (k : ℕ) (cardCount : ℤ) : ℕ → ℕ → ℕ
  | 0, p => if cardCount ≤ getCombinations p k then p else p + 1
  | fuel + 1, p =>
    if cardCount ≤ getCombinations p k then p
    else if 100 < p + 1 then p + 1
    else minPoolAux k cardCount fuel (p + 1)

/-- The search loop entered at candidate size `p`. -/
def minPoolGo (k : ℕ) (cardCount : ℤ) (p : ℕ) : ℕ :=
  minPoolAux k cardCount (101 - p) p

/-- Embedding of the pool-size effect: run the search loop starting from
`itemsPerCard = rows * cols` and take the max with `itemsPerCard + 1`
(`suggestedMin = Math.max(calculatedMinPool, itemsPerCard + 1)`). -/
def minimumPool (rows cols : ℕ) (cardCount : ℤ) : ℕ :=
  max (minPoolGo (rows * cols) cardCount (rows * cols)) (rows * cols + 1)

/-! ### Properties of the pool-size search -/

/-- If the search loop stops at a value of at most 100, then the stopping
condition held there: the combination count at the result reaches
`cardCount`.  The side condition `101 ≤ fuel + p` is the invariant tying the
structural counter to the loop variable. -/
theorem minPoolAux_le_100_sound (k : ℕ) (c : ℤ) :
    ∀ fuel p, 101 ≤ fuel + p → minPoolAux k c fuel p ≤ 100 →
      c ≤ getCombinations (minPoolAux k c fuel p) k := by
  intro fuel
  induction fuel with
  | zero =>
    intro p hinv hle
    simp only [minPoolAux] at hle ⊢
    split at hle
    · omega
    · omega
  | succ n ih =>
    intro p hinv hle
    rw [minPoolAux] at hle ⊢
    by_cases h1 : c ≤ getCombinations p k
    · rw [if_pos h1] at hle ⊢
      exact h1
    · rw [if_neg h1] at hle ⊢
      by_cases h2 : 100 < p + 1
      · rw [if_pos h2] at hle
        omega
      · rw [if_neg h2] at hle ⊢
        exact ih (p + 1) (by omega) hle

/-- The search loop never returns less than its starting candidate. -/
theorem minPoolAux_start_le (k : ℕ) (c : ℤ) :
    ∀ fuel p, p ≤ minPoolAux k c fuel p := by
  intro fuel
  induction fuel with
  | zero =>
    intro p
    simp only [minPoolAux]
    split <;> omega
  | succ n ih =>
    intro p
    simp only [minPoolAux]
    split
    · omega
    · split
      · omega
      · exact le_trans (by omega) (ih (p + 1))

/-- Started at a candidate of at most 100, the search loop returns at most
101. -/
theorem minPoolAux_le_101 (k : ℕ) (c : ℤ) :
    ∀ fuel p, p ≤ 100 → minPoolAux k c fuel p ≤ 101 := by
  intro fuel
  induction fuel with
  | zero =>
    intro p hp
    simp only [minPoolAux]
    split <;> omega
  | succ n ih =>
    intro p hp
    simp only [minPoolAux]
    split
    · omega
    · split
      · omega
      · exact ih (p + 1) (by omega)

/-- When no candidate size up to 100 reaches `cardCount` combinations, the
search loop runs into the hard ceiling and returns 101. -/
theorem minPoolAux_ceiling (k : ℕ) (c : ℤ)
    (hall : ∀ n, k ≤ n → n ≤ 100 → getCombinations n k < c) :
    ∀ fuel p, k ≤ p → 101 ≤ fuel + p → p ≤ 100 → minPoolAux k c fuel p = 101 := by
  intro fuel
  induction fuel with
  | zero =>
    intro p hk hinv hp
    omega
  | succ n ih =>
    intro p hk hinv hp
    simp only [minPoolAux]
    split
    · next h => exact absurd h (not_le.mpr (hall p hk hp))
    · split
      · omega
      · exact ih (p + 1) (by omega) (by omega) (by omega)

/-- The source computes `C(k, k) = 1`. -/
theorem getCombinations_self (k : ℕ) : getCombinations k k = 1 := by
  simp [getCombinations]

/-- The source computes `C(k+1, k) = k + 1` for `k ≥ 1`. -/
theorem getCombinations_succ_self (k : ℕ) (hk : 1 ≤ k) :
    getCombinations (k + 1) k = (k : ℤ) + 1 := by
  rw [getCombinations, if_neg (by omega), if_neg (by omega)]
  have hr2 : (if k + 1 < 2 * k then k + 1 - k else k) = 1 := by
    rcases Nat.lt_or_ge k 2 with h2 | h2
    · interval_cases k
      · simp
    · rw [if_pos (by omega)]
      omega
  simp only [hr2]
  rw [show List.range 1 = [0] from rfl]
  simp only [List.foldl_cons, List.foldl_nil]
  have hval : (1 : ℚ) * (((k + 1 : ℕ) : ℚ) - (((0 : ℕ) : ℚ) + 1) + 1) / (((0 : ℕ) : ℚ) + 1)
      = ((k + 1 : ℕ) : ℚ) := by
    push_cast
    ring
  rw [hval, jsRound_eq_round, round_natCast]
  push_cast
  ring

/-- Claim C2: for every grid shape in `{3,4,5} × {3,4,5}` and card count in
`[1,100]`, the pool-size computation returns at least `rows*cols + 1`, and
whenever the result did not hit the 100-ceiling (result ≤ 100), the
combination count `C(result, rows*cols)` computed by the source is at least
the card count. -/
theorem minimumPool_lower_and_combinations (rows cols : ℕ) (cardCount : ℤ)
    (hr : rows = 3 ∨ rows = 4 ∨ rows = 5) (hc : cols = 3 ∨ cols = 4 ∨ cols = 5)
    (h1 : 1 ≤ cardCount) (h100 : cardCount ≤ 100) :
    rows * cols + 1 ≤ minimumPool rows cols cardCount ∧
      (minimumPool rows cols cardCount ≤ 100 →
        cardCount ≤ getCombinations (minimumPool rows cols cardCount) (rows * cols)) := by
  have hk25 : rows * cols ≤ 25 := by
    rcases hr with rfl | rfl | rfl <;> rcases hc with rfl | rfl | rfl <;> norm_num
  have hk9 : 9 ≤ rows * cols := by
    rcases hr with rfl | rfl | rfl <;> rcases hc with rfl | rfl | rfl <;> norm_num
  set k := rows * cols with hkdef
  refine ⟨le_max_right _ _, ?_⟩
  intro hle
  have hstart := minPoolAux_start_le k cardCount (101 - k) k
  rcases Nat.lt_or_ge k (minPoolGo k cardCount k) with hgt | hge
  · -- the loop advanced at least one step: the max is the loop result
    have hmax : minimumPool rows cols cardCount = minPoolGo k cardCount k := by
      rw [minimumPool, ← hkdef]
      omega
    rw [hmax] at hle ⊢
    exact minPoolAux_le_100_sound k cardCount (101 - k) k (by omega) hle
  · -- the loop stopped immediately at `k`, so `cardCount ≤ C(k,k) = 1`
    have heq : minPoolGo k cardCount k = k := le_antisymm hge hstart
    have hcond := minPoolAux_le_100_sound k cardCount (101 - k) k (by omega)
      (by rw [show minPoolAux k cardCount (101 - k) k = minPoolGo k cardCount k from rfl, heq]; omega)
    rw [show minPoolAux k cardCount (101 - k) k = minPoolGo k cardCount k from rfl, heq,
      getCombinations_self] at hcond
    have hmax : minimumPool rows cols cardCount = k + 1 := by
      rw [minimumPool, ← hkdef]
      omega
    rw [hmax, getCombinations_succ_self k (by omega)]
    omega

/-- Concrete instantiation of claim C2 at rows = 3, cols = 3, cardCount = 30. -/
theorem minimumPool_lower_and_combinations_witness :
    ((3 : ℕ) = 3 ∨ (3 : ℕ) = 4 ∨ (3 : ℕ) = 5) ∧ (1 ≤ (30 : ℤ) ∧ (30 : ℤ) ≤ 100) ∧
      (3 * 3 + 1 ≤ minimumPool 3 3 30 ∧
        (minimumPool 3 3 30 ≤ 100 → (30 : ℤ) ≤ getCombinations (minimumPool 3 3 30) (3 * 3))) :=
  ⟨Or.inl rfl, ⟨by norm_num, by norm_num⟩,
    minimumPool_lower_and_combinations 3 3 30 (Or.inl rfl) (Or.inl rfl)
      (by norm_num) (by norm_num)⟩

set_option maxRecDepth 100000 in
/-- Claim C5 counterexample: the pool-size computation for a 3×3 grid and
30 cards does not return 13 (it returns 11, since `C(11,9) = 55 ≥ 30`). -/
theorem minimumPool_3_3_30_ne_13 : minimumPool 3 3 30 ≠ 13 := by
  have h : minimumPool 3 3 30 = 11 := by with_unfolding_all rfl
  rw [h]
  omega

set_option maxRecDepth 100000 in
/-- Claim C5 (amended): `minimumPool(3, 3, 30)` returns 11. -/
theorem minimumPool_3_3_30_eq_11 : minimumPool 3 3 30 = 11 := by
  with_unfolding_all rfl

set_option maxRecDepth 1000000 in
/-- Claim C6 counterexample: with a 3×3 grid and a card count of
2·10¹² (which no pool of size ≤ 100 can satisfy, as `C(100,9) ≈ 1.9·10¹²`),
the computation returns 101, not the ceiling value 100, so the returned pool
size can exceed 100. -/
theorem minimumPool_ceiling_exceeds_100 :
    minimumPool 3 3 2000000000000 ≠ 100 ∧ 100 < minimumPool 3 3 2000000000000 := by
  have h : minimumPool 3 3 2000000000000 = 101 := by with_unfolding_all rfl
  rw [h]
  omega

/-- Claim C6 (amended): for grid shapes from the UI (`rows, cols ∈ {3,4,5}`),
the pool-size computation never returns more than 101, and when the search
hits the hard ceiling — no candidate size up to 100 reaches the requested
combination count — it returns exactly 101 (the ceiling plus one, because the
loop increments before testing the ceiling). -/
theorem minimumPool_ceiling_returns_101 (rows cols : ℕ) (cardCount : ℤ)
    (hr : rows = 3 ∨ rows = 4 ∨ rows = 5) (hc : cols = 3 ∨ cols = 4 ∨ cols = 5) :
    minimumPool rows cols cardCount ≤ 101 ∧
      ((∀ n, rows * cols ≤ n → n ≤ 100 →
          getCombinations n (rows * cols) < cardCount) →
        minimumPool rows cols cardCount = 101) := by
  have hk25 : rows * cols ≤ 25 := by
    rcases hr with rfl | rfl | rfl <;> rcases hc with rfl | rfl | rfl <;> norm_num
  constructor
  · have := minPoolAux_le_101 (rows * cols) cardCount (101 - rows * cols) (rows * cols)
      (by omega)
    rw [minimumPool]
    have : minPoolGo (rows * cols) cardCount (rows * cols) ≤ 101 := this
    omega
  · intro hall
    have hloop : minPoolGo (rows * cols) cardCount (rows * cols) = 101 :=
      minPoolAux_ceiling (rows * cols) cardCount hall (101 - rows * cols) (rows * cols)
        le_rfl (by omega) (by omega)
    rw [minimumPool, hloop]
    omega

/-- Concrete instantiation of claim C6 (amended) at rows = 3, cols = 3,
cardCount = 2·10¹². -/
theorem minimumPool_ceiling_returns_101_witness :
    ((3 : ℕ) = 3 ∨ (3 : ℕ) = 4 ∨ (3 : ℕ) = 5) ∧
      (minimumPool 3 3 2000000000000 ≤ 101 ∧
        ((∀ n, 3 * 3 ≤ n → n ≤ 100 →
            getCombinations n (3 * 3) < (2000000000000 : ℤ)) →
          minimumPool 3 3 2000000000000 = 101)) :=
  ⟨Or.inl rfl,
    minimumPool_ceiling_returns_101 3 3 2000000000000 (Or.inl rfl) (Or.inl rfl)⟩

/-! ### Card assembly -/

/-- The destructuring swap `[arr[i], arr[j]] = [arr[j], arr[i]]` on a list:
position `i` receives the old entry at `j` and vice versa.  Out-of-range
indices leave the list unchanged; whenever the shuffle uses it, both indices
are in range. -/
def listSwap {α : Type} (l : List α) (i j : ℕ) : List α :=
  match l[i]?, l[j]? with
  | some a, some b => (l.set i b).set j a
  | _, _ => l

/-- The Fisher–Yates loop of `shuffleArray`: for `i` from the given start
index down to 1, swap position `i` with position `g i % (i + 1)`.  Here
`g i % (i + 1)` models the draw `Math.floor(Math.random() * (i + 1))`, which
is an arbitrary value in `0..i`; every sequence of in-range draws arises
from some `g`. -/
def fyLoop {α : Type} (g : ℕ → ℕ) : ℕ → List α → List α
  | 0, arr => arr
  | i + 1, arr => fyLoop g i (listSwap arr (i + 1) (g (i + 1) % (i + 1 + 1)))

/-- Embedding of `shuffleArray`: copy the array and run the Fisher–Yates
loop from index `length - 1` down to 1. -/
def shuffleArray {α : Type} (g : ℕ → ℕ) (array : List α) : List α :=
  fyLoop g (array.length - 1) array

/-- Moving the `m`-th entry to the front while overwriting position `m`
with `a` permutes `a` onto the front. -/
theorem cons_get_set_perm {α : Type} (t : List α) :
    ∀ (m : ℕ) (h : m < t.length) (a : α),
      List.Perm (t.get ⟨m, h⟩ :: t.set m a) (a :: t) := by
  induction t with
  | nil =>
    intro m h a
    simp at h
  | cons y t ih =>
    intro m h a
    cases m with
    | zero => simpa using List.Perm.swap a y t
    | succ k =>
      have hk : k < t.length := by simpa using h
      have e1 : (y :: t).get ⟨k + 1, h⟩ :: (y :: t).set (k + 1) a
          = t.get ⟨k, hk⟩ :: y :: t.set k a := by simp
      rw [e1]
      exact ((List.Perm.swap _ _ _).trans ((ih k hk a).cons y)).trans
        (List.Perm.swap _ _ _)

/-- Swapping two in-range entries of a list is a permutation. -/
theorem set_set_swap_perm {α : Type} :
    ∀ (l : List α) (i j : ℕ) (hi : i < l.length) (hj : j < l.length),
      List.Perm ((l.set i (l.get ⟨j, hj⟩)).set j (l.get ⟨i, hi⟩)) l := by
  intro l
  induction l with
  | nil =>
    intro i j hi hj
    simp at hi
  | cons x t ih =>
    intro i j hi hj
    cases i with
    | zero =>
      cases j with
      | zero => simp
      | succ m => simpa using cons_get_set_perm t m (by simpa using hj) x
    | succ n =>
      cases j with
      | zero => simpa using cons_get_set_perm t n (by simpa using hi) x
      | succ m =>
        simpa using (ih n m (by simpa using hi) (by simpa using hj)).cons x

/-- `listSwap` always produces a permutation of its input. -/
theorem listSwap_perm {α : Type} (l : List α) (i j : ℕ) :
    List.Perm (listSwap l i j) l := by
  unfold listSwap
  split
  · next a b hi hj =>
    obtain ⟨hi', ha⟩ := List.getElem?_eq_some_iff.mp hi
    obtain ⟨hj', hb⟩ := List.getElem?_eq_some_iff.mp hj
    have := set_set_swap_perm l i j hi' hj'
    simpa [List.get_eq_getElem, ha, hb] using this
  · exact List.Perm.refl l

/-- The Fisher–Yates loop produces a permutation of its input. -/
theorem fyLoop_perm {α : Type} (g : ℕ → ℕ) :
    ∀ (k : ℕ) (l : List α), List.Perm (fyLoop g k l) l := by
  intro k
  induction k with
  | zero =>
    intro l
    exact List.Perm.refl l
  | succ i ih =>
    intro l
    exact (ih _).trans (listSwap_perm l (i + 1) _)

/-- `shuffleArray` produces a permutation of the pool. -/
theorem shuffleArray_perm {α : Type} (g : ℕ → ℕ) (l : List α) :
    List.Perm (shuffleArray g l) l :=
  fyLoop_perm g (l.length - 1) l

/-- `shuffleArray` preserves the length of the pool. -/
theorem shuffleArray_length {α : Type} (g : ℕ → ℕ) (l : List α) :
    (shuffleArray g l).length = l.length :=
  (shuffleArray_perm g l).length_eq

/-- A bingo card: a 1-based identifier and the list of cell entries. -/
structure BingoCardData (α : Type) where
  id : ℕ
  cells : List α

/-- The `for (let i = 1; i <= count; i++)` loop of `generateCards`: `i` is
the identifier of the card being built and `remaining` counts the cards
still to produce.  `none` models the early `return` (no `setCards` call)
taken when a shuffled pool is shorter than the grid. -/
def genLoop {α : Type} (g : ℕ → ℕ → ℕ) (itemsNeeded : ℕ) (pool : List α) :
    ℕ → ℕ → Option (List (BingoCardData α))
  | _, 0 => some []
  | i, remaining + 1 =>
    let shuffled := shuffleArray (g i) pool
    if shuffled.length < itemsNeeded then none
    else
      match genLoop g itemsNeeded pool (i + 1) remaining with
      | some rest => some ({ id := i, cells := shuffled.take itemsNeeded } :: rest)
      | none => none

/-- Embedding of `generateCards(pool, count)` with grid dimensions from
state.  `g i` is the random source used for the shuffle of card `i`.  A
count ≤ 0 runs the loop body zero times.  `some cards` models the
`setCards(newCards)` commit; `none` models returning without committing. -/
def generateCards {α : Type} (g : ℕ → ℕ → ℕ) (rows cols : ℕ) (pool : List α)
    (count : ℤ) : Option (List (BingoCardData α)) :=
  genLoop g (rows * cols) pool 1 count.toNat

/-- The generation loop, started at any identifier with a sufficient pool,
succeeds and yields consecutively numbered cards whose cells are `n`
entries taken from a permutation of the pool. -/
theorem genLoop_spec {α : Type} (g : ℕ → ℕ → ℕ) (n : ℕ) (pool : List α)
    (hlen : n ≤ pool.length) :
    ∀ remaining i, ∃ cards, genLoop g n pool i remaining = some cards ∧
      cards.length = remaining ∧
      cards.map BingoCardData.id = List.range' i remaining ∧
      ∀ c ∈ cards, c.cells.length = n ∧ (∀ x ∈ c.cells, x ∈ pool) ∧
        (pool.Nodup → c.cells.Nodup) := by
  intro remaining
  induction remaining with
  | zero =>
    intro i
    exact ⟨[], rfl, rfl, rfl, by simp⟩
  | succ r ih =>
    intro i
    obtain ⟨rest, hrest, hrlen, hids, hprops⟩ := ih (i + 1)
    have hnot : ¬ (shuffleArray (g i) pool).length < n := by
      rw [shuffleArray_length]
      omega
    refine ⟨{ id := i, cells := (shuffleArray (g i) pool).take n } :: rest, ?_, ?_, ?_, ?_⟩
    · rw [genLoop]
      simp only [if_neg hnot, hrest]
    · simp [hrlen]
    · simp [hids, List.range'_succ]
    · intro c hc
      rcases List.mem_cons.mp hc with rfl | hc
      · refine ⟨?_, ?_, ?_⟩
        · rw [List.length_take, shuffleArray_length]
          omega
        · intro x hx
          exact (shuffleArray_perm (g i) pool).subset ((List.take_sublist n _).subset hx)
        · intro hnd
          exact ((shuffleArray_perm (g i) pool).nodup_iff.mpr hnd).sublist (List.take_sublist n _)
      · exact hprops c hc

/-- Claim C1: for every pool at least as large as the grid, every card
count ≥ 1 and every random sequence, `generateCards` commits exactly
`count` cards whose identifiers are `1..count` in order, each card holding
exactly `rows*cols` entries drawn from the pool, with no entry repeated
inside a card when the pool's items are pairwise distinct. -/
theorem generateCards_correct {α : Type} (g : ℕ → ℕ → ℕ) (rows cols : ℕ)
    (pool : List α) (count : ℤ) (hpool : rows * cols ≤ pool.length)
    (hcount : 1 ≤ count) (hnodup : pool.Nodup) :
    ∃ cards, generateCards g rows cols pool count = some cards ∧
      (cards.length : ℤ) = count ∧
      cards.map BingoCardData.id = List.range' 1 count.toNat ∧
      ∀ c ∈ cards, c.cells.length = rows * cols ∧
        (∀ x ∈ c.cells, x ∈ pool) ∧ c.cells.Nodup := by
  obtain ⟨cards, h1, h2, h3, h4⟩ := genLoop_spec g (rows * cols) pool hpool count.toNat 1
  refine ⟨cards, h1, ?_, h3, fun c hc => ⟨(h4 c hc).1, (h4 c hc).2.1, (h4 c hc).2.2 hnodup⟩⟩
  rw [h2]
  exact Int.toNat_of_nonneg (by omega)

/-- Concrete instantiation of claim C1: a 3×3 grid, the 9-item pool
`[0,…,8]`, one card, and the random sequence that always draws 0. -/
theorem generateCards_correct_witness :
    3 * 3 ≤ ([0, 1, 2, 3, 4, 5, 6, 7, 8] : List ℕ).length ∧ (1 : ℤ) ≤ 1 ∧
      ([0, 1, 2, 3, 4, 5, 6, 7, 8] : List ℕ).Nodup ∧
      ∃ cards, generateCards (fun _ _ => 0) 3 3 ([0, 1, 2, 3, 4, 5, 6, 7, 8] : List ℕ) 1
            = some cards ∧
          (cards.length : ℤ) = 1 ∧
          cards.map BingoCardData.id = List.range' 1 (1 : ℤ).toNat ∧
          ∀ c ∈ cards, c.cells.length = 3 * 3 ∧
            (∀ x ∈ c.cells, x ∈ ([0, 1, 2, 3, 4, 5, 6, 7, 8] : List ℕ)) ∧ c.cells.Nodup :=
  ⟨by norm_num, le_refl 1, by decide,
    generateCards_correct (fun _ _ => 0) 3 3 _ 1 (by norm_num) (le_refl 1) (by decide)⟩

/-- Claim C4: when the pool is smaller than the grid and at least one card
is requested, `generateCards` aborts without committing anything: the
result is `none` (the early `return` fires before `setCards`, so the
card-set state is left unchanged). -/
theorem generateCards_small_pool_aborts {α : Type} (g : ℕ → ℕ → ℕ) (rows cols : ℕ)
    (pool : List α) (count : ℤ) (hpool : pool.length < rows * cols)
    (hcount : 1 ≤ count) :
    generateCards g rows cols pool count = none := by
  rw [generateCards]
  obtain ⟨m, hm⟩ : ∃ m, count.toNat = m + 1 := ⟨count.toNat - 1, by omega⟩
  have hlt : (shuffleArray (g 1) pool).length < rows * cols := by
    rw [shuffleArray_length]
    exact hpool
  rw [hm]
  simp [genLoop, hlt]

/-- Concrete instantiation of claim C4: a 5-item pool on a 3×3 grid. -/
theorem generateCards_small_pool_aborts_witness :
    ([0, 1, 2, 3, 4] : List ℕ).length < 3 * 3 ∧ (1 : ℤ) ≤ 1 ∧
      generateCards (fun _ _ => 0) 3 3 ([0, 1, 2, 3, 4] : List ℕ) 1 = none :=
  ⟨by norm_num, le_refl 1,
    generateCards_small_pool_aborts (fun _ _ => 0) 3 3 _ 1 (by norm_num) (le_refl 1)⟩

/-- Claim C10: for any pool — even one smaller than the grid — and a card
count ≤ 0, the per-card loop never runs, so the pool-size check is never
evaluated and `generateCards` commits the empty card set without error. -/
theorem generateCards_nonpositive_count {α : Type} (g : ℕ → ℕ → ℕ) (rows cols : ℕ)
    (pool : List α) (count : ℤ) (hcount : count ≤ 0) :
    generateCards g rows cols pool count = some [] := by
  rw [generateCards, Int.toNat_of_nonpos hcount]
  rfl

/-- Concrete instantiation of claim C10: a 2-item pool on a 3×3 grid with a
card count of 0. -/
theorem generateCards_nonpositive_count_witness :
    (0 : ℤ) ≤ 0 ∧ generateCards (fun _ _ => 0) 3 3 ([0, 1] : List ℕ) 0 = some [] :=
  ⟨le_refl 0, generateCards_nonpositive_count (fun _ _ => 0) 3 3 _ 0 (le_refl 0)⟩

/-! ### Calling-list pagination -/

/-- One iteration's strip-height choice in the calling-list pagination loop:
propose `min(remaining, maxH)`; if more bitmap remains than fits on one page
(`remaining > maxH`), scan the reversed breakpoint list (the in-place
`reverse()` before `find`, undone afterwards) for the first row bottom
strictly between the cursor and the proposed cut, and shrink the strip to end
there; otherwise keep the proposal. -/
def chooseSlice (bps : List ℚ) (maxH cur remaining : ℚ) : ℚ :=
  let slice := min remaining maxH
  if maxH < remaining then
    let cutPoint := cur + slice
    match bps.reverse.find? (fun bp => decide (bp < cutPoint ∧ cur < bp)) with
    | some safeBreak => safeBreak - cur
    | none => slice
  else slice

/-- The calling-list pagination loop (`while (remainingSrcHeight > 0)`),
returning the list of slice heights.  The source allocates exactly one page
(`pdf.addPage()`) per iteration, so the pages correspond one-to-one to the
entries of this list.  `fuel` bounds the iterations; `none` means the loop
did not finish within `fuel` iterations. -/
def paginateAux (bps : List ℚ) (maxH : ℚ) : ℕ → ℚ → ℚ → Option (List ℚ)
  | 0, _, remaining => if 0 < remaining then none else some []
  | fuel + 1, cur, remaining =>
    if 0 < remaining then
      let slice := chooseSlice bps maxH cur remaining
      match paginateAux bps maxH fuel (cur + slice) (remaining - slice) with
      | some rest => some (slice :: rest)
      | none => none
    else some []

/-- On a list sorted in descending order, a successful interval `find?`
returns a maximum element of the interval. -/
theorem find_desc_max (lo hi : ℚ) :
    ∀ l : List ℚ, l.Sorted (fun a b => b ≤ a) →
      ∀ x, l.find? (fun bp => decide (bp < hi ∧ lo < bp)) = some x →
        x ∈ l ∧ (x < hi ∧ lo < x) ∧ ∀ y ∈ l, y < hi → lo < y → y ≤ x := by
  intro l
  induction l with
  | nil =>
    intro _ x h
    simp at h
  | cons a t ih =>
    intro hs x h
    obtain ⟨ha, hst⟩ := List.sorted_cons.mp hs
    by_cases hpa : a < hi ∧ lo < a
    · rw [List.find?_cons_of_pos t (by simpa using hpa)] at h
      obtain rfl : a = x := by simpa using h
      refine ⟨List.mem_cons_self a t, hpa, ?_⟩
      intro y hy _ _
      rcases List.mem_cons.mp hy with rfl | hy
      · exact le_refl y
      · exact ha y hy
    · rw [List.find?_cons_of_neg t (by simpa using hpa)] at h
      obtain ⟨hmem, hbounds, hmaxi⟩ := ih hst x h
      refine ⟨List.mem_cons_of_mem a hmem, hbounds, ?_⟩
      intro y hy h1 h2
      rcases List.mem_cons.mp hy with rfl | hy
      · exact absurd ⟨h1, h2⟩ hpa
      · exact hmaxi y hy h1 h2

/-- An ascending list reversed is descending. -/
theorem sorted_reverse_of_sorted {l : List ℚ} (h : l.Sorted (· ≤ ·)) :
    l.reverse.Sorted (fun a b => b ≤ a) := by
  rw [List.Sorted, List.pairwise_reverse]
  exact h

/-- Claim C3: in the pagination loop, whenever the remaining bitmap height
exceeds the maximum strip height, the chosen strip ends exactly at the
largest recorded row bottom lying strictly between the cursor and
`cursor + maxH`, provided the breakpoints are ascending and such a row
bottom exists; when none exists in that window, the strip height is the raw
maximum `maxH` (a row is split). -/
theorem chooseSlice_safe_break (bps : List ℚ) (maxH cur remaining : ℚ)
    (hrem : maxH < remaining) (hasc : bps.Sorted (· ≤ ·)) :
    ((∃ bp ∈ bps, cur < bp ∧ bp < cur + maxH) →
      ∃ bp ∈ bps, (cur < bp ∧ bp < cur + maxH) ∧
        (∀ b ∈ bps, cur < b → b < cur + maxH → b ≤ bp) ∧
        cur + chooseSlice bps maxH cur remaining = bp) ∧
    ((∀ bp ∈ bps, ¬(cur < bp ∧ bp < cur + maxH)) →
      chooseSlice bps maxH cur remaining = maxH) := by
  have hmin : min remaining maxH = maxH := min_eq_right hrem.le
  have hcs : chooseSlice bps maxH cur remaining =
      (match bps.reverse.find? (fun bp => decide (bp < cur + maxH ∧ cur < bp)) with
       | some safeBreak => safeBreak - cur
       | none => maxH) := by
    simp only [chooseSlice, hmin, if_pos hrem]
  constructor
  · rintro ⟨bp, hmem, hlo, hhi⟩
    cases hfind : bps.reverse.find? (fun bp => decide (bp < cur + maxH ∧ cur < bp)) with
    | none =>
      exfalso
      have := List.find?_eq_none.mp hfind bp (List.mem_reverse.mpr hmem)
      simp only [decide_eq_true_eq] at this
      exact this ⟨hhi, hlo⟩
    | some sb =>
      obtain ⟨hsmem, hsbounds, hsmax⟩ :=
        find_desc_max cur (cur + maxH) bps.reverse (sorted_reverse_of_sorted hasc) sb hfind
      refine ⟨sb, List.mem_reverse.mp hsmem, ⟨hsbounds.2, hsbounds.1⟩, ?_, ?_⟩
      · intro b hb h1 h2
        exact hsmax b (List.mem_reverse.mpr hb) h2 h1
      · rw [hcs, hfind]
        ring
  · intro hnone
    rw [hcs]
    have : bps.reverse.find? (fun bp => decide (bp < cur + maxH ∧ cur < bp)) = none := by
      rw [List.find?_eq_none]
      intro x hx
      simp only [decide_eq_true_eq]
      intro hcontra
      exact hnone x (List.mem_reverse.mp hx) ⟨hcontra.2, hcontra.1⟩
    rw [this]

/-- Concrete instantiation of claim C3: breakpoints `[1, 2, 4]`, maximum
strip height 3, cursor 0, remaining height 10; the window `(0, 3)` contains
1 and 2, and the strip ends at 2. -/
theorem chooseSlice_safe_break_witness :
    ((3 : ℚ) < 10) ∧ ([(1 : ℚ), 2, 4].Sorted (· ≤ ·)) ∧
      (((∃ bp ∈ [(1 : ℚ), 2, 4], 0 < bp ∧ bp < 0 + 3) →
        ∃ bp ∈ [(1 : ℚ), 2, 4], (0 < bp ∧ bp < 0 + 3) ∧
          (∀ b ∈ [(1 : ℚ), 2, 4], 0 < b → b < 0 + 3 → b ≤ bp) ∧
          0 + chooseSlice [(1 : ℚ), 2, 4] 3 0 10 = bp) ∧
      ((∀ bp ∈ [(1 : ℚ), 2, 4], ¬(0 < bp ∧ bp < 0 + 3)) →
        chooseSlice [(1 : ℚ), 2, 4] 3 0 10 = 3)) :=
  ⟨by norm_num, by norm_num [List.sorted_cons],
    chooseSlice_safe_break [(1 : ℚ), 2, 4] 3 0 10 (by norm_num)
      (by norm_num [List.sorted_cons])⟩

/-- Counting with a stronger predicate that some member separates is
strictly smaller. -/
theorem countP_lt_of_sep {α : Type} {l : List α} {p q : α → Bool} (x : α)
    (hx : x ∈ l) (hqx : q x = true) (hpx : p x = false)
    (himp : ∀ a ∈ l, p a = true → q a = true) :
    l.countP p < l.countP q := by
  induction l with
  | nil => simp at hx
  | cons a t ih =>
    have himpt : ∀ b ∈ t, p b = true → q b = true :=
      fun b hb => himp b (List.mem_cons_of_mem a hb)
    rw [List.countP_cons, List.countP_cons]
    rcases List.mem_cons.mp hx with hax | hxt
    · have hpa : p a = false := by
        rw [← hax]
        exact hpx
      have hqa : q a = true := by
        rw [← hax]
        exact hqx
      have e1 : (if p a then 1 else 0) = 0 := by
        rw [hpa]
        simp
      have e2 : (if q a then 1 else 0) = 1 := by
        rw [hqa]
        simp
      have hmono : t.countP p ≤ t.countP q := List.countP_mono_left himpt
      rw [e1, e2]
      omega
    · have hlt : t.countP p < t.countP q := ih hxt himpt
      have hif : (if p a then 1 else 0) ≤ (if q a then 1 else 0) := by
        by_cases hpa : p a = true
        · rw [if_pos hpa, if_pos (himp a (List.mem_cons_self a t) hpa)]
        · rw [if_neg hpa]
          split
          · omega
          · omega
      omega

/-- Per-iteration facts about the chosen strip: it is positive, consumes no
more than the remaining height, fits on one page, and strictly decreases
the termination measure (breakpoints above the cursor, plus pages left by
height). -/
theorem chooseSlice_progress (bps : List ℚ) (maxH cur rem : ℚ)
    (hmax : 0 < maxH) (hpos : 0 < rem) :
    0 < chooseSlice bps maxH cur rem ∧ chooseSlice bps maxH cur rem ≤ rem ∧
      chooseSlice bps maxH cur rem ≤ maxH ∧
      bps.countP (fun b => decide (cur + chooseSlice bps maxH cur rem < b)) +
          (⌈(rem - chooseSlice bps maxH cur rem) / maxH⌉).toNat
        < bps.countP (fun b => decide (cur < b)) + (⌈rem / maxH⌉).toNat := by
  have hceil1 : 1 ≤ ⌈rem / maxH⌉ := by
    have := Int.ceil_pos.mpr (div_pos hpos hmax)
    omega
  by_cases hbig : maxH < rem
  · have hmin : min rem maxH = maxH := min_eq_right hbig.le
    have hcs : chooseSlice bps maxH cur rem =
        (match bps.reverse.find? (fun bp => decide (bp < cur + maxH ∧ cur < bp)) with
         | some safeBreak => safeBreak - cur
         | none => maxH) := by
      simp only [chooseSlice, hmin, if_pos hbig]
    cases hfind : bps.reverse.find? (fun bp => decide (bp < cur + maxH ∧ cur < bp)) with
    | none =>
      have hval : chooseSlice bps maxH cur rem = maxH := by
        rw [hcs, hfind]
      rw [hval]
      refine ⟨hmax, hbig.le, le_refl maxH, ?_⟩
      have hmono : bps.countP (fun b => decide (cur + maxH < b))
          ≤ bps.countP (fun b => decide (cur < b)) := by
        refine List.countP_mono_left fun b _ hb => ?_
        simp only [decide_eq_true_eq] at hb ⊢
        nlinarith
      have hsub : (rem - maxH) / maxH = rem / maxH - 1 := by
        rw [sub_div, div_self (ne_of_gt hmax)]
      have hde : ⌈(rem - maxH) / maxH⌉ = ⌈rem / maxH⌉ - 1 := by
        rw [hsub, Int.ceil_sub_one]
      rw [hde]
      omega
    | some sb =>
      have hpred : sb < cur + maxH ∧ cur < sb := by
        simpa using List.find?_some hfind
      have hsmem : sb ∈ bps := List.mem_reverse.mp (List.mem_of_find?_eq_some hfind)
      have hval : chooseSlice bps maxH cur rem = sb - cur := by
        rw [hcs, hfind]
      rw [hval]
      refine ⟨by linarith [hpred.2], by linarith [hpred.1], by linarith [hpred.1], ?_⟩
      have hcur' : cur + (sb - cur) = sb := by ring
      simp only [hcur']
      have hcount : bps.countP (fun b => decide (sb < b))
          < bps.countP (fun b => decide (cur < b)) := by
        refine countP_lt_of_sep sb hsmem ?_ ?_ ?_
        · simpa using hpred.2
        · simp
        · intro a _ ha
          simp only [decide_eq_true_eq] at ha ⊢
          linarith [hpred.2]
      have hmono2 : (⌈(rem - (sb - cur)) / maxH⌉).toNat ≤ (⌈rem / maxH⌉).toNat := by
        refine Int.toNat_le_toNat (Int.ceil_le_ceil ?_)
        gcongr
        linarith [hpred.2]
      omega
  · have hslice : chooseSlice bps maxH cur rem = rem := by
      have hmin : min rem maxH = rem := min_eq_left (le_of_not_lt hbig)
      simp only [chooseSlice, hmin, if_neg hbig]
    rw [hslice]
    refine ⟨hpos, le_refl rem, le_of_not_lt hbig, ?_⟩
    have hmono : bps.countP (fun b => decide (cur + rem < b))
        ≤ bps.countP (fun b => decide (cur < b)) := by
      refine List.countP_mono_left fun b _ hb => ?_
      simp only [decide_eq_true_eq] at hb ⊢
      nlinarith
    have hz : (⌈(rem - rem) / maxH⌉).toNat = 0 := by
      simp
    rw [hz]
    omega

/-- With enough fuel (measured by breakpoints above the cursor plus pages
left by height), the pagination loop finishes, its slices sum to the whole
remaining height, and every slice fits on one page. -/
theorem paginateAux_total (bps : List ℚ) (maxH : ℚ) (hmax : 0 < maxH) :
    ∀ fuel cur remaining, 0 ≤ remaining →
      bps.countP (fun b => decide (cur < b)) + (⌈remaining / maxH⌉).toNat ≤ fuel →
      ∃ slices, paginateAux bps maxH fuel cur remaining = some slices ∧
        slices.sum = remaining ∧ ∀ s ∈ slices, s ≤ maxH := by
  intro fuel
  induction fuel with
  | zero =>
    intro cur rem h0 hfuel
    have hceil : (⌈rem / maxH⌉).toNat = 0 := by omega
    have hr0 : rem = 0 := by
      by_contra hne
      have hpos : 0 < rem := lt_of_le_of_ne h0 (Ne.symm hne)
      have := Int.ceil_pos.mpr (div_pos hpos hmax)
      omega
    subst hr0
    exact ⟨[], by simp [paginateAux], by simp, by simp⟩
  | succ f ih =>
    intro cur rem h0 hfuel
    by_cases hpos : 0 < rem
    · obtain ⟨hs0, hsrem, hsmax, hmeas⟩ := chooseSlice_progress bps maxH cur rem hmax hpos
      obtain ⟨rest, hrest, hsum, hall⟩ :=
        ih (cur + chooseSlice bps maxH cur rem) (rem - chooseSlice bps maxH cur rem)
          (by linarith) (by omega)
      refine ⟨chooseSlice bps maxH cur rem :: rest, ?_, ?_, ?_⟩
      · rw [paginateAux, if_pos hpos]
        simp only [hrest]
      · rw [List.sum_cons, hsum]
        ring
      · intro s hs
        rcases List.mem_cons.mp hs with rfl | hs
        · exact hsmax
        · exact hall s hs
    · have hr0 : rem = 0 := le_antisymm (le_of_not_lt hpos) h0
      subst hr0
      exact ⟨[], by simp [paginateAux], by simp, by simp⟩

/-- Claim C7: for every positive bitmap height, positive maximum strip
height and ascending breakpoint list, the pagination loop terminates
(within `|bps| + ⌈total / maxH⌉` iterations), consumes the whole bitmap
(the slice heights sum to the total), and — one page being allocated per
iteration — produces at least `⌈total / maxH⌉` pages. -/
theorem paginate_consumes_all (bps : List ℚ) (maxH total : ℚ)
    (hmax : 0 < maxH) (htotal : 0 < total) (hasc : bps.Sorted (· ≤ ·)) :
    ∃ slices,
      paginateAux bps maxH (bps.length + (⌈total / maxH⌉).toNat) 0 total = some slices ∧
        slices.sum = total ∧ (⌈total / maxH⌉ : ℤ) ≤ slices.length := by
  obtain ⟨slices, h1, h2, h3⟩ :=
    paginateAux_total bps maxH hmax (bps.length + (⌈total / maxH⌉).toNat) 0 total htotal.le
      (by
        have := List.countP_le_length (l := bps) (fun b => decide ((0 : ℚ) < b))
        omega)
  refine ⟨slices, h1, h2, ?_⟩
  have hsum : slices.sum ≤ slices.length • maxH := List.sum_le_card_nsmul slices maxH h3
  rw [h2] at hsum
  have hle : total ≤ (slices.length : ℚ) * maxH := by
    simpa [nsmul_eq_mul] using hsum
  have hdiv : total / maxH ≤ (slices.length : ℚ) := (div_le_iff₀ hmax).mpr hle
  calc (⌈total / maxH⌉ : ℤ) ≤ ⌈((slices.length : ℕ) : ℚ)⌉ := Int.ceil_le_ceil hdiv
    _ = slices.length := Int.ceil_natCast _

/-- Concrete instantiation of claim C7: one breakpoint at 2, maximum strip
height 3, total height 5; the loop produces slices `[2, 3]`. -/
theorem paginate_consumes_all_witness :
    (0 : ℚ) < 3 ∧ (0 : ℚ) < 5 ∧ ([(2 : ℚ)].Sorted (· ≤ ·)) ∧
      (∃ slices,
        paginateAux [(2 : ℚ)] 3 ([(2 : ℚ)].length + (⌈(5 : ℚ) / 3⌉).toNat) 0 5
            = some slices ∧
          slices.sum = 5 ∧ (⌈(5 : ℚ) / 3⌉ : ℤ) ≤ slices.length) :=
  ⟨by norm_num, by norm_num, by simp,
    paginate_consumes_all [(2 : ℚ)] 3 5 (by norm_num) (by norm_num) (by simp)⟩

/-! ### Card placement -/

/-- A4 page height in millimetres. -/
def pageHeight : ℚ := 297

/-- Page margin in millimetres. -/
def margin : ℚ := 10

/-- The state threaded through the card-placement loop: the vertical cursor
and the number of extra pages added so far. -/
structure PlaceState where
  cursorY : ℚ
  page : ℕ

/-- One iteration of the card-placement loop, for card `i` of `n` with
rendered height `heights i`: before an even-index (first-in-row) card,
start a new page if the card would cross the bottom margin, resetting the
cursor to `margin + 10`; after an odd-index card, or after the last card,
advance the cursor by the card height plus the 10 mm row gap. -/
def placeStep (n : ℕ) (heights : ℕ → ℚ) (i : ℕ) (s : PlaceState) : PlaceState :=
  let h := heights i
  let s1 := if i % 2 = 0 then
      (if pageHeight - margin < s.cursorY + h then
        { cursorY := margin + 10, page := s.page + 1 }
      else s)
    else s
  if i % 2 = 1 ∨ i + 1 = n then
    { s1 with cursorY := s1.cursorY + h + 10 }
  else s1

/-- The card-placement loop over all `n` cards, starting below the title
(`cursorY = 30`) on the first page. -/
def placeLoop (n : ℕ) (heights : ℕ → ℚ) : PlaceState :=
  (List.range n).foldl (fun s i => placeStep n heights i s) { cursorY := 30, page := 0 }

/-- Claim C8: the cursor advances only after an odd-index (second-in-row)
card or after the last card — an even-index non-last card leaves the cursor
unchanged or merely resets it to the top padding on a page break — and when
the page-break check fires before an even-index card, the cursor after
placing the following odd-index card equals top padding plus that card's
height plus the gap, with no height carried over from the previous page. -/
theorem placeStep_page_break_cursor (n : ℕ) (heights : ℕ → ℚ) (i : ℕ) (s : PlaceState)
    (heven : i % 2 = 0) (hnext : i + 1 < n)
    (hbreak : pageHeight - margin < s.cursorY + heights i) :
    (placeStep n heights (i + 1) (placeStep n heights i s)).cursorY
        = (margin + 10) + heights (i + 1) + 10 ∧
      ∀ (j : ℕ) (t : PlaceState), j % 2 = 0 → j + 1 ≠ n →
        ((placeStep n heights j t).cursorY = t.cursorY ∨
          (placeStep n heights j t).cursorY = margin + 10) := by
  constructor
  · have hcond : ¬(i % 2 = 1 ∨ i + 1 = n) := by omega
    have h1 : placeStep n heights i s = { cursorY := margin + 10, page := s.page + 1 } := by
      simp only [placeStep]
      rw [if_pos heven, if_pos hbreak, if_neg hcond]
    rw [h1]
    simp only [placeStep]
    have hodd : (i + 1) % 2 = 1 := by omega
    rw [if_neg (show ¬(i + 1) % 2 = 0 by omega), if_pos (Or.inl hodd)]
  · intro j t hj hjn
    simp only [placeStep]
    rw [if_pos hj, if_neg (show ¬(j % 2 = 1 ∨ j + 1 = n) by omega)]
    by_cases hb : pageHeight - margin < t.cursorY + heights j
    · rw [if_pos hb]
      exact Or.inr rfl
    · rw [if_neg hb]
      exact Or.inl rfl

/-- Concrete instantiation of claim C8: two cards of height 100 with the
cursor at 250, so the break fires before card 0; after card 1 the cursor is
`(10 + 10) + 100 + 10 = 130`. -/
theorem placeStep_page_break_cursor_witness :
    (0 % 2 = 0) ∧ (0 + 1 < 2) ∧
      (pageHeight - margin < (PlaceState.mk 250 0).cursorY + (fun _ : ℕ => (100 : ℚ)) 0) ∧
      ((placeStep 2 (fun _ : ℕ => (100 : ℚ)) (0 + 1)
            (placeStep 2 (fun _ : ℕ => (100 : ℚ)) 0 (PlaceState.mk 250 0))).cursorY
          = (margin + 10) + (fun _ : ℕ => (100 : ℚ)) (0 + 1) + 10 ∧
        ∀ (j : ℕ) (t : PlaceState), j % 2 = 0 → j + 1 ≠ 2 →
          ((placeStep 2 (fun _ : ℕ => (100 : ℚ)) j t).cursorY = t.cursorY ∨
            (placeStep 2 (fun _ : ℕ => (100 : ℚ)) j t).cursorY = margin + 10)) :=
  ⟨rfl, by omega, by norm_num [pageHeight, margin],
    placeStep_page_break_cursor 2 (fun _ : ℕ => (100 : ℚ)) 0 (PlaceState.mk 250 0)
      rfl (by omega) (by norm_num [pageHeight, margin])⟩

/-! ### Subject detection -/

/-- The subject metadata consumed by the app. -/
structure SubjectContext where
  subject : String
  isMath : Bool

/-- The parsed JSON payload of a successful subject-detection response:
`subject` is `none` when the field is absent (or falsy), `isMath` the
truthiness of the corresponding field. -/
structure DetectPayload where
  subject : Option String
  isMath : Bool

/-- Embedding of `detectSubject`: the external service call plus JSON parse
is abstracted by its outcome (`Except.error` for a network or parse
failure).  The source wraps the call in `try … catch` and, in the catch
branch, returns the default subject metadata instead of re-throwing. -/
def detectSubject (call : Except String DetectPayload) : Except String SubjectContext :=
  match call with
  | Except.ok r => Except.ok { subject := r.subject.getD "Algemeen", isMath := r.isMath }
  | Except.error _ => Except.ok { subject := "Algemeen", isMath := false }

/-- Claim C9 counterexample: on a failing provider call, `detectSubject`
does not propagate the failure — it returns the default subject metadata
`(Algemeen, not math)` instead of an error. -/
theorem detectSubject_swallows_failure :
    detectSubject (Except.error "network error")
        = Except.ok { subject := "Algemeen", isMath := false } ∧
      (detectSubject (Except.error "network error")).isOk = true :=
  ⟨rfl, rfl⟩

/-- Claim C9 (amended): for every failing provider call, `detectSubject`
catches the error and returns the default subject metadata
`{ subject := "Algemeen", isMath := false }` rather than propagating the
failure to the caller. -/
theorem detectSubject_error_returns_default (msg : String) :
    detectSubject (Except.error msg)
      = Except.ok { subject := "Algemeen", isMath := false } :=
  rfl

end Bingo
